import Mathlib

/-!
Verification of the long-text extraction pipeline described in the
repository's documentation notebook
(`docs/docs/use_cases/extraction/how_to/handle_long_text.ipynb`).

The notebook sequences calls to library components (a token text splitter,
a batch dispatcher with a concurrency cap, a vector-store retriever) whose
implementations live elsewhere in the repository; only their call sites are
in the supplied sources.  Those components are therefore modelled from the
specification's contracts, each such definition carrying a doc comment that
says so.  Code that does appear verbatim in the notebook (document cleanup,
the schema types, the merge loop, the RAG lambda) is embedded directly.
-/

/-! ## Chunker -/

/-- Error raised by the Chunker on bad parameters. -/
inductive ChunkError where
  | invalidConfiguration
deriving DecidableEq, Repr

/-- Modelled from the spec: the Chunker (the notebook's `TokenTextSplitter`,
whose implementation is not under the supplied sources).  Segment boundaries:
starting at `start`, each segment spans `[start, min (start + S) len)`; the
next segment begins `S - O` units later; the loop stops once a segment
reaches the end of the text.  `fuel` bounds the iteration count (the start
index grows by at least one per step when `O < S`, so `len + 1` units of fuel
always suffice). -/
def chunkBoundsAux (len S O : Nat) : Nat → Nat → List (Nat × Nat)
  | 0, _ => []
  | fuel + 1, start =>
    if start < len then
      let stop := min (start + S) len
      if stop = len then
        [(start, stop - start)]
      else
        (start, stop - start) :: chunkBoundsAux len S O fuel (start + (S - O))
    else []

/-- Modelled from the spec: the `(start, length)` pairs of the segments the
Chunker produces for a text of length `len`, size `S`, overlap `O`. -/
def chunkBounds (len S O : Nat) : List (Nat × Nat) :=
  chunkBoundsAux len S O (len + 1) 0

/-- Modelled from the spec: the Chunker.  Fails with `invalidConfiguration`
when `overlap ≥ size`; otherwise returns the list of segments, each the slice
of the text given by `chunkBounds`. -/
def chunk (S O : Nat) (T : List Char) : Except ChunkError (List (List Char)) :=
  if S ≤ O then
    .error .invalidConfiguration
  else
    .ok ((chunkBounds T.length S O).map (fun p => (T.drop p.1).take p.2))

/-- Number of positions shared by two segments' index ranges. -/
def boundsOverlap (a b : Nat × Nat) : Nat :=
  min (a.1 + a.2) (b.1 + b.2) - max a.1 b.1

/-! ### Structural lemmas about the chunk bounds -/

theorem chunkBoundsAux_zero (len S O start : Nat) :
    chunkBoundsAux len S O 0 start = [] := rfl

theorem chunkBoundsAux_succ (len S O fuel start : Nat) :
    chunkBoundsAux len S O (fuel + 1) start =
      if start < len then
        if min (start + S) len = len then
          [(start, min (start + S) len - start)]
        else
          (start, min (start + S) len - start) ::
            chunkBoundsAux len S O fuel (start + (S - O))
      else [] := rfl

/-- Every position of the text at or after `start` is covered by some
segment bound, provided there is enough fuel. -/
theorem chunkBoundsAux_covers (len S O : Nat) (hSO : O < S) :
    ∀ fuel start p, start ≤ p → p < len → len - start ≤ fuel →
      ∃ q ∈ chunkBoundsAux len S O fuel start, q.1 ≤ p ∧ p < q.1 + q.2 := by
  intro fuel
  induction fuel with
  | zero =>
    intro start p hsp hplen hfuel
    omega
  | succ fuel ih =>
    intro start p hsp hplen hfuel
    have hstart : start < len := Nat.lt_of_le_of_lt hsp hplen
    rw [chunkBoundsAux_succ]
    simp only [hstart, if_true]
    by_cases hend : min (start + S) len = len
    · simp only [hend, if_true]
      exact ⟨(start, len - start), by simp, by simpa using hsp, by omega⟩
    · simp only [hend, if_false]
      have hlt : start + S < len := by omega
      by_cases hcov : p < start + S
      · exact ⟨(start, min (start + S) len - start), by simp, hsp, by omega⟩
      · obtain ⟨q, hq, hq1, hq2⟩ :=
          ih (start + (S - O)) p (by omega) hplen (by omega)
        exact ⟨q, by simp [hq], hq1, hq2⟩

/-- If the bounds list is nonempty, its head starts at `start`, spans to
`min (start + S) len`, and `start < len`. -/
theorem chunkBoundsAux_head (len S O fuel start : Nat)
    (h : chunkBoundsAux len S O fuel start ≠ []) :
    ∃ rest, start < len ∧
      chunkBoundsAux len S O fuel start =
        (start, min (start + S) len - start) :: rest := by
  cases fuel with
  | zero => simp [chunkBoundsAux_zero] at h
  | succ fuel' =>
    rw [chunkBoundsAux_succ] at h ⊢
    by_cases hstart : start < len
    · by_cases hend : min (start + S) len = len
      · exact ⟨[], hstart, by rw [if_pos hstart, if_pos hend]⟩
      · exact ⟨chunkBoundsAux len S O fuel' (start + (S - O)), hstart,
          by rw [if_pos hstart, if_neg hend]⟩
    · rw [if_neg hstart] at h
      exact absurd rfl h

/-- Consecutive bounds: the next segment starts exactly `S - O` after the
previous one, the previous one has full length `S` and ends strictly inside
the text, and each segment's span is determined by its start. -/
theorem chunkBoundsAux_pairs (len S O : Nat) (hSO : O < S) :
    ∀ fuel start i a b,
      (chunkBoundsAux len S O fuel start)[i]? = some a →
      (chunkBoundsAux len S O fuel start)[i + 1]? = some b →
      b.1 = a.1 + (S - O) ∧ a.2 = S ∧ a.1 + S < len ∧
        b.1 < len ∧ b.2 = min (b.1 + S) len - b.1 := by
  intro fuel
  induction fuel with
  | zero =>
    intro start i a b ha hb
    simp [chunkBoundsAux_zero] at ha
  | succ fuel ih =>
    intro start i a b ha hb
    rw [chunkBoundsAux_succ] at ha hb
    by_cases hstart : start < len
    · rw [if_pos hstart] at ha hb
      by_cases hend : min (start + S) len = len
      · rw [if_pos hend] at hb
        rcases i with _ | i <;> simp at hb
      · rw [if_neg hend] at ha hb
        have hfull : start + S < len := by omega
        cases i with
        | zero =>
          rw [List.getElem?_cons_zero] at ha
          rw [List.getElem?_cons_succ] at hb
          have htail : chunkBoundsAux len S O fuel (start + (S - O)) ≠ [] := by
            intro hnil
            rw [hnil] at hb
            simp at hb
          obtain ⟨rest, hlt, heq⟩ :=
            chunkBoundsAux_head len S O fuel (start + (S - O)) htail
          rw [heq, List.getElem?_cons_zero] at hb
          rw [Option.some_inj] at hb
          cases Option.some_inj.mp ha
          cases hb
          exact ⟨rfl, by omega, hfull, hlt, by simp⟩
        | succ i =>
          rw [List.getElem?_cons_succ] at ha hb
          exact ih (start + (S - O)) i a b ha hb
    · rw [if_neg hstart] at ha
      simp at ha

/-- Every produced bound starts inside the text, ends within it, and has
positive length. -/
theorem chunkBoundsAux_mem (len S O : Nat) (hSO : O < S) :
    ∀ fuel start, ∀ q ∈ chunkBoundsAux len S O fuel start,
      q.1 < len ∧ q.1 + q.2 ≤ len ∧ 1 ≤ q.2 := by
  intro fuel
  induction fuel with
  | zero =>
    intro start q hq
    simp [chunkBoundsAux_zero] at hq
  | succ fuel ih =>
    intro start q hq
    rw [chunkBoundsAux_succ] at hq
    by_cases hstart : start < len
    · rw [if_pos hstart] at hq
      by_cases hend : min (start + S) len = len
      · rw [if_pos hend] at hq
        rw [List.mem_singleton] at hq
        subst hq
        refine ⟨hstart, by omega, by omega⟩
      · rw [if_neg hend] at hq
        rcases List.mem_cons.mp hq with hq | hq
        · subst hq
          refine ⟨hstart, by omega, by omega⟩
        · exact ih (start + (S - O)) q hq
    · rw [if_neg hstart] at hq
      simp at hq

/-- A successful chunking result is exactly the list of text slices given by
the chunk bounds. -/
theorem chunk_ok_eq (S O : Nat) (T : List Char) (hSO : O < S)
    (segs : List (List Char)) (hok : chunk S O T = .ok segs) :
    segs = (chunkBounds T.length S O).map (fun r => (T.drop r.1).take r.2) := by
  unfold chunk at hok
  rw [if_neg (by omega)] at hok
  exact (Except.ok.inj hok).symm

/-! ## Claims about the Chunker -/

/-- C1: for every text and every valid configuration (overlap < size), every
character of the text is covered by at least one produced segment: there is a
segment bound containing the character's position, the corresponding slice is
among the returned segments, and the character occurs in that slice at the
expected offset. -/
theorem chunk_covers (S O : Nat) (T : List Char) (hSO : O < S)
    (segs : List (List Char)) (hok : chunk S O T = .ok segs)
    (p : Nat) (hp : p < T.length) :
    ∃ q ∈ chunkBounds T.length S O,
      q.1 ≤ p ∧ p < q.1 + q.2 ∧
      ((T.drop q.1).take q.2) ∈ segs ∧
      ((T.drop q.1).take q.2)[p - q.1]? = T[p]? := by
  obtain ⟨q, hq, hq1, hq2⟩ :=
    chunkBoundsAux_covers T.length S O hSO (T.length + 1) 0 p (Nat.zero_le p)
      hp (by omega)
  have hsegs := chunk_ok_eq S O T hSO segs hok
  refine ⟨q, hq, hq1, hq2, ?_, ?_⟩
  · rw [hsegs]
    exact List.mem_map_of_mem _ hq
  · rw [List.getElem?_take_of_lt (by omega), List.getElem?_drop]
    congr 1
    omega

theorem chunk_covers_instance :
    ∃ q ∈ chunkBounds 5 3 1, q.1 ≤ 4 ∧ 4 < q.1 + q.2 ∧
      (((['a', 'b', 'c', 'd', 'e'] : List Char).drop q.1).take q.2) ∈
        ([['a', 'b', 'c'], ['c', 'd', 'e']] : List (List Char)) ∧
      (((['a', 'b', 'c', 'd', 'e'] : List Char).drop q.1).take q.2)[4 - q.1]? =
        (['a', 'b', 'c', 'd', 'e'] : List Char)[4]? :=
  chunk_covers 3 1 ['a', 'b', 'c', 'd', 'e'] (by decide)
    [['a', 'b', 'c'], ['c', 'd', 'e']] rfl 4 (by decide)

/-- C2: for every valid configuration, adjacent segments overlap by exactly
`O` positions, and segment `i + 1` begins exactly `S - O` units after segment
`i` begins; the returned segments at those indices are the corresponding text
slices. -/
theorem chunk_adjacent (S O : Nat) (T : List Char) (hSO : O < S)
    (segs : List (List Char)) (hok : chunk S O T = .ok segs)
    (i : Nat) (a b : Nat × Nat)
    (ha : (chunkBounds T.length S O)[i]? = some a)
    (hb : (chunkBounds T.length S O)[i + 1]? = some b) :
    b.1 = a.1 + (S - O) ∧ boundsOverlap a b = O ∧
      segs[i]? = some ((T.drop a.1).take a.2) ∧
      segs[i + 1]? = some ((T.drop b.1).take b.2) := by
  obtain ⟨h1, h2, h3, h4, h5⟩ :=
    chunkBoundsAux_pairs T.length S O hSO (T.length + 1) 0 i a b ha hb
  have hsegs := chunk_ok_eq S O T hSO segs hok
  refine ⟨h1, ?_, ?_, ?_⟩
  · simp only [boundsOverlap]
    omega
  · rw [hsegs, List.getElem?_map, ha]
    rfl
  · rw [hsegs, List.getElem?_map, hb]
    rfl

theorem chunk_adjacent_instance :
    ((2, 3) : Nat × Nat).1 = ((0, 3) : Nat × Nat).1 + (3 - 1) ∧
      boundsOverlap (0, 3) (2, 3) = 1 ∧
      ([['a', 'b', 'c'], ['c', 'd', 'e']] : List (List Char))[0]? =
        some (((['a', 'b', 'c', 'd', 'e'] : List Char).drop 0).take 3) ∧
      ([['a', 'b', 'c'], ['c', 'd', 'e']] : List (List Char))[0 + 1]? =
        some (((['a', 'b', 'c', 'd', 'e'] : List Char).drop 2).take 3) :=
  chunk_adjacent 3 1 ['a', 'b', 'c', 'd', 'e'] (by decide)
    [['a', 'b', 'c'], ['c', 'd', 'e']] rfl 0 (0, 3) (2, 3) rfl rfl

/-- C5: chunking with overlap ≥ size fails with `invalidConfiguration` (and,
being a total function, never loops); a successful chunking never contains a
zero-length segment. -/
theorem chunk_overlap_ge_size (S O : Nat) (T : List Char) :
    (S ≤ O → chunk S O T = .error .invalidConfiguration) ∧
    (∀ segs, chunk S O T = .ok segs → ∀ seg ∈ segs, seg ≠ []) := by
  constructor
  · intro h
    unfold chunk
    rw [if_pos h]
  · intro segs hok seg hseg
    have hSO : O < S := by
      by_contra h
      unfold chunk at hok
      rw [if_pos (by omega)] at hok
      simp at hok
    rw [chunk_ok_eq S O T hSO segs hok] at hseg
    obtain ⟨q, hq, hqe⟩ := List.mem_map.mp hseg
    obtain ⟨h1, h2, h3⟩ := chunkBoundsAux_mem T.length S O hSO (T.length + 1) 0 q hq
    intro hnil
    rw [← hqe] at hnil
    have hlen : ((T.drop q.1).take q.2).length = min q.2 (T.length - q.1) := by
      simp [List.length_take, List.length_drop]
    rw [hnil] at hlen
    simp at hlen
    omega

theorem chunk_overlap_ge_size_instance :
    chunk 1 2 ['a'] = .error .invalidConfiguration :=
  (chunk_overlap_ge_size 1 2 ['a']).1 (by decide)

/-- If a later slice starts `k` positions before an earlier full-length slice
ends, the last `k` characters of the earlier slice equal the first `k`
characters of the later one. -/
theorem slice_shared (T : List Char) (s l s' l' k : Nat)
    (h1 : s' + k = s + l) (h2 : k ≤ l) (h3 : k ≤ l') (h4 : s + l ≤ T.length) :
    ((T.drop s).take l).drop (((T.drop s).take l).length - k) =
      ((T.drop s').take l').take k := by
  have hlen : ((T.drop s).take l).length = l := by
    rw [List.length_take, List.length_drop]
    omega
  have e1 : l - (l - k) = k := by omega
  have e2 : s + (l - k) = s' := by omega
  rw [hlen, List.drop_take, List.drop_drop, e1, e2, List.take_take,
    min_eq_left h3]

/-- C7: chunking a text of exactly 10000 units with segment size 2000 and
overlap 20 produces exactly 6 segments; adjacent segment bounds share exactly
20 positions, and the last 20 characters of each segment equal the first 20
characters of the next one. -/
theorem chunk_example_10000 (T : List Char) (hT : T.length = 10000)
    (segs : List (List Char)) (hok : chunk 2000 20 T = .ok segs) :
    segs.length = 6 ∧
    (∀ i a b, (chunkBounds 10000 2000 20)[i]? = some a →
      (chunkBounds 10000 2000 20)[i + 1]? = some b →
      boundsOverlap a b = 20) ∧
    (∀ i si sj, segs[i]? = some si → segs[i + 1]? = some sj →
      si.drop (si.length - 20) = sj.take 20) := by
  have hsegs := chunk_ok_eq 2000 20 T (by omega) segs hok
  rw [hT] at hsegs
  refine ⟨?_, ?_, ?_⟩
  · rw [hsegs, List.length_map]
    decide
  · intro i a b ha hb
    obtain ⟨h1, h2, h3, h4, h5⟩ :=
      chunkBoundsAux_pairs 10000 2000 20 (by omega) (10000 + 1) 0 i a b ha hb
    simp only [boundsOverlap]
    omega
  · intro i si sj hi hj
    rw [hsegs, List.getElem?_map] at hi hj
    cases ha : (chunkBounds 10000 2000 20)[i]? with
    | none =>
      rw [ha] at hi
      simp at hi
    | some a =>
      cases hb : (chunkBounds 10000 2000 20)[i + 1]? with
      | none =>
        rw [hb] at hj
        simp at hj
      | some b =>
        rw [ha] at hi
        rw [hb] at hj
        have hi' : (T.drop a.1).take a.2 = si := by simpa using hi
        have hj' : (T.drop b.1).take b.2 = sj := by simpa using hj
        obtain ⟨h1, h2, h3, h4, h5⟩ :=
          chunkBoundsAux_pairs 10000 2000 20 (by omega) (10000 + 1) 0 i a b ha hb
        subst hi' hj'
        exact slice_shared T a.1 a.2 b.1 b.2 20 (by omega) (by omega)
          (by omega) (by omega)

theorem chunk_example_10000_instance :
    ((chunkBounds 10000 2000 20).map
        (fun r => ((List.replicate 10000 'a').drop r.1).take r.2)).length = 6 ∧
    (∀ i a b, (chunkBounds 10000 2000 20)[i]? = some a →
      (chunkBounds 10000 2000 20)[i + 1]? = some b →
      boundsOverlap a b = 20) ∧
    (∀ i si sj,
      ((chunkBounds 10000 2000 20).map
          (fun r => ((List.replicate 10000 'a').drop r.1).take r.2))[i]? =
        some si →
      ((chunkBounds 10000 2000 20).map
          (fun r => ((List.replicate 10000 'a').drop r.1).take r.2))[i + 1]? =
        some sj →
      si.drop (si.length - 20) = sj.take 20) := by
  have hlen : (List.replicate 10000 'a').length = 10000 := by
    rw [List.length_replicate]
  refine chunk_example_10000 (List.replicate 10000 'a') hlen _ ?_
  unfold chunk
  rw [if_neg (by omega), hlen]

/-! ## Extraction schema (the notebook's pydantic models) -/

/-- `KeyDevelopment` from the notebook: a structured record with a year, a
description, and a verbatim evidence span. -/
structure KeyDevelopment where
  year : Int
  description : String
  evidence : String
deriving DecidableEq, Repr

/-- `ExtractionData` from the notebook: the extraction result for one text,
holding zero or more `KeyDevelopment` records. -/
structure ExtractionData where
  key_developments : List KeyDevelopment
deriving DecidableEq, Repr

/-! ## Result Merger (the notebook's merge loop) -/

/-- The notebook's merge loop:
`key_developments = []`, then for each extraction
`key_developments.extend(extraction.key_developments)`. -/
def mergeExtractions (extractions : List ExtractionData) : List KeyDevelopment :=
  extractions.foldl (fun acc extraction => acc ++ extraction.key_developments) []

theorem foldl_append_eq_join {β : Type} (f : β → List KeyDevelopment) :
    ∀ (l : List β) (init : List KeyDevelopment),
      l.foldl (fun acc e => acc ++ f e) init = init ++ (l.map f).flatten := by
  intro l
  induction l with
  | nil =>
    intro init
    simp
  | cons e rest ih =>
    intro init
    rw [List.foldl_cons, ih, List.map_cons, List.flatten]
    simp

/-- C8: the Result Merger concatenates the per-segment record lists in
segment order, and it enforces no uniqueness invariant: every occurrence of
every record is retained (the multiplicity of each record in the merged
result is the sum of its per-segment multiplicities). -/
theorem mergeExtractions_concat_in_order (extractions : List ExtractionData) :
    mergeExtractions extractions =
      (extractions.map (fun e => e.key_developments)).flatten ∧
    ∀ r : KeyDevelopment,
      (mergeExtractions extractions).count r =
        (extractions.map (fun e => e.key_developments.count r)).sum := by
  have hjoin := foldl_append_eq_join (fun e : ExtractionData => e.key_developments)
    extractions []
  constructor
  · rw [mergeExtractions, hjoin, List.nil_append]
  · intro r
    rw [mergeExtractions, hjoin, List.nil_append, List.count_flatten, List.map_map]
    rfl

/-! ## Extractor Client outcomes and the batch result -/

/-- Modelled from the spec: the failure of one segment's extraction call
(transport failure, or malformed / non-conforming response). -/
inductive ServiceError where
  | transportFailure
  | malformedResponse
deriving DecidableEq, Repr

/-- Modelled from the spec: the outcome of extracting one segment — either a
schema-conforming `ExtractionData` (possibly with an empty record list) or a
`ServiceError`. -/
abbrev SegmentOutcome := Except ServiceError ExtractionData

/-- The "no records found" outcome: a valid, schema-conforming empty
extraction. -/
def noRecordsFound : SegmentOutcome := .ok ⟨[]⟩

/-- Modelled from the spec: how the notebook's batch call surfaces results —
all per-segment extractions on success, or the first error (the batch raises
rather than substituting a default value for the failed segment). -/
def collectOutcomes : List SegmentOutcome → Except ServiceError (List ExtractionData)
  | [] => .ok []
  | o :: rest =>
    match o with
    | .error e => .error e
    | .ok d =>
      match collectOutcomes rest with
      | .error e => .error e
      | .ok ds => .ok (d :: ds)

/-- C6: "no records found" and "extraction failed" are never collapsed: when
the batch succeeds, each returned collection (including an empty one) comes
from that segment's own successful outcome, and when any segment failed the
batch never returns a collection at all — in particular a failure is never
reported as the empty-collection response `noRecordsFound`. -/
theorem outcome_not_collapsed (outcomes : List SegmentOutcome) :
    (∀ ds, collectOutcomes outcomes = .ok ds →
      ds.length = outcomes.length ∧
      ∀ (i : Nat) (d : ExtractionData),
        ds[i]? = some d → outcomes[i]? = some (Except.ok d)) ∧
    (∀ e, Except.error e ∈ outcomes →
      ∀ ds, collectOutcomes outcomes ≠ .ok ds) ∧
    (∀ e, noRecordsFound ≠ (.error e : SegmentOutcome)) := by
  refine ⟨?_, ?_, fun e h => Except.noConfusion h⟩
  · induction outcomes with
    | nil =>
      intro ds hds
      have hds' : ([] : List ExtractionData) = ds := Except.ok.inj hds
      subst hds'
      exact ⟨rfl, by intro i d h; simp at h⟩
    | cons o rest ih =>
      intro ds hds
      match o with
      | .error e => simp [collectOutcomes] at hds
      | .ok d =>
        simp only [collectOutcomes] at hds
        cases hrest : collectOutcomes rest with
        | error e =>
          rw [hrest] at hds
          simp at hds
        | ok ds' =>
          rw [hrest] at hds
          have hds' : d :: ds' = ds := Except.ok.inj hds
          subst hds'
          obtain ⟨hlen, hat⟩ := ih ds' hrest
          refine ⟨by simp [hlen], ?_⟩
          intro i d' hid
          cases i with
          | zero =>
            rw [List.getElem?_cons_zero] at hid ⊢
            cases hid
            rfl
          | succ i =>
            rw [List.getElem?_cons_succ] at hid ⊢
            exact hat i d' hid
  · induction outcomes with
    | nil =>
      intro e he
      simp at he
    | cons o rest ih =>
      intro e he ds hds
      match o with
      | .error e' => simp [collectOutcomes] at hds
      | .ok d =>
        simp only [collectOutcomes] at hds
        rcases List.mem_cons.mp he with he | he
        · exact Except.noConfusion he.symm
        · cases hrest : collectOutcomes rest with
          | error e' =>
            rw [hrest] at hds
            simp at hds
          | ok ds' => exact ih e he ds' hrest

theorem outcome_not_collapsed_instance :
    ∀ ds, collectOutcomes [noRecordsFound, .error .transportFailure] ≠ .ok ds :=
  fun ds =>
    (outcome_not_collapsed [noRecordsFound, .error .transportFailure]).2.1
      .transportFailure (by simp) ds

/-! ## Batch Dispatcher: ordering -/

/-- Modelled from the spec: a completion schedule is the order in which the
indexed Extractor Client calls finish; the worker finishing segment `i`
deposits the pair `(i, f i)` in the result buffer. -/
def runSchedule {α : Type} (f : Nat → α) (order : List Nat) : List (Nat × α) :=
  order.map (fun i => (i, f i))

/-- Modelled from the spec: the Batch Dispatcher reassembles the buffered
completions by original segment index, not by arrival order. -/
def reassemble {α : Type} (K : Nat) (buf : List (Nat × α)) : List (Option α) :=
  (List.range K).map (fun i => buf.lookup i)

/-- Modelled from the spec: dispatch `K` indexed calls, observe completions
in the order given by `order`, and reassemble by index. -/
def dispatch {α : Type} (f : Nat → α) (K : Nat) (order : List Nat) :
    List (Option α) :=
  reassemble K (runSchedule f order)

theorem lookup_runSchedule {α : Type} (f : Nat → α) :
    ∀ (order : List Nat) (i : Nat), i ∈ order →
      (runSchedule f order).lookup i = some (f i) := by
  intro order
  induction order with
  | nil =>
    intro i h
    simp at h
  | cons j rest ih =>
    intro i h
    simp only [runSchedule, List.map_cons, List.lookup]
    by_cases hij : i = j
    · subst hij
      simp
    · have : (i == j) = false := beq_false_of_ne hij
      rw [this]
      rcases List.mem_cons.mp h with h | h
      · exact absurd h hij
      · exact ih i h

/-- C3: for every batch of `K` segments and every completion order, the
dispatcher returns the per-segment results in input order: the output is the
results of segments `0, …, K-1` in that order, independent of `order`. -/
theorem dispatch_ordered {α : Type} (f : Nat → α) (K : Nat) (order : List Nat)
    (hperm : order.Perm (List.range K)) :
    dispatch f K order = (List.range K).map (fun i => some (f i)) := by
  unfold dispatch reassemble
  apply List.map_congr_left
  intro i hi
  exact lookup_runSchedule f order i (hperm.mem_iff.mpr hi)

theorem dispatch_ordered_instance :
    dispatch (fun i => 10 * i) 3 [2, 0, 1] =
      (List.range 3).map (fun i => some (10 * i)) :=
  dispatch_ordered (fun i => 10 * i) 3 [2, 0, 1] (by decide)

/-! ## Batch Dispatcher: concurrency cap -/

/-- Modelled from the spec: the Batch Dispatcher's bounded worker pool.
`pending` holds the segment indices not yet started, `inflight` those with an
outstanding Extractor Client call, `done` the completed ones. -/
structure PoolState where
  pending : List Nat
  inflight : List Nat
  done : List Nat
deriving DecidableEq, Repr

/-- Modelled from the spec: one scheduling step of the dispatcher with
concurrency cap `N`: a pending call may start only while fewer than `N`
calls are outstanding; an outstanding call may finish at any time. -/
inductive PoolStep (N : Nat) : PoolState → PoolState → Prop where
  | start (i : Nat) (rest : List Nat) (s : PoolState) :
      s.pending = i :: rest →
      s.inflight.length < N →
      PoolStep N s ⟨rest, i :: s.inflight, s.done⟩
  | finish (i : Nat) (s : PoolState) :
      i ∈ s.inflight →
      PoolStep N s ⟨s.pending, s.inflight.erase i, i :: s.done⟩

/-- The dispatcher's initial state for a batch of `K` segments. -/
def initPool (K : Nat) : PoolState :=
  ⟨List.range K, [], []⟩

/-- C4: dispatching `K` segments with concurrency cap `N`, at no reachable
point of the execution are more than `N` Extractor Client calls
outstanding. -/
theorem pool_bounded_inflight (N K : Nat) (s : PoolState)
    (h : Relation.ReflTransGen (PoolStep N) (initPool K) s) :
    s.inflight.length ≤ N := by
  induction h with
  | refl => simp [initPool]
  | tail hsteps hstep ih =>
    cases hstep with
    | start i rest s hpend hlt =>
      simpa using hlt
    | finish i s hin =>
      simp only
      rw [List.length_erase_of_mem hin]
      omega

theorem pool_bounded_inflight_instance :
    (PoolState.mk [1] [0] []).inflight.length ≤ 1 :=
  pool_bounded_inflight 1 2 ⟨[1], [0], []⟩
    (Relation.ReflTransGen.single
      (PoolStep.start 0 [1] (initPool 2) (by decide) (by decide)))

/-! ## Document and the post-load cleanup -/

/-- `Document` from the notebook: page content plus key-value metadata. -/
structure Document where
  page_content : List Char
  metadata : List (String × String)
deriving DecidableEq, Repr

/-- The notebook's cleanup line
`document.page_content = re.sub("\n\n+", "\n", document.page_content)`:
every maximal run of two or more newlines is replaced by a single newline
(a newline directly followed by another newline is dropped). -/
def collapseNewlines : List Char → List Char
  | [] => []
  | a :: rest =>
    if a = '\n' ∧ rest.head? = some '\n' then collapseNewlines rest
    else a :: collapseNewlines rest

/-- The notebook's post-load cleanup step, which reassigns
`document.page_content`. -/
def cleanDocument (d : Document) : Document :=
  { d with page_content := collapseNewlines d.page_content }

/-- The pipeline state the notebook threads through its cells: the loaded
document and the chunked texts. -/
structure NotebookState where
  document : Document
  texts : List (List Char)
deriving DecidableEq, Repr

/-- The notebook's splitting cell,
`texts = text_splitter.split_text(document.page_content)`: it only reads the
document. -/
def splitStage (S O : Nat) (st : NotebookState) :
    Except ChunkError NotebookState :=
  (chunk S O st.document.page_content).map (fun segs => { st with texts := segs })

theorem collapseNewlines_head? :
    ∀ l : List Char, (collapseNewlines l).head? = l.head? := by
  intro l
  induction l with
  | nil => rfl
  | cons a rest ih =>
    by_cases h : a = '\n' ∧ rest.head? = some '\n'
    · rw [collapseNewlines, if_pos h, ih, h.2, h.1]
      rfl
    · rw [collapseNewlines, if_neg h]
      rfl

theorem collapseNewlines_idem :
    ∀ l : List Char, collapseNewlines (collapseNewlines l) = collapseNewlines l := by
  intro l
  induction l with
  | nil => rfl
  | cons a rest ih =>
    by_cases h : a = '\n' ∧ rest.head? = some '\n'
    · rw [collapseNewlines, if_pos h, ih]
    · rw [collapseNewlines, if_neg h, collapseNewlines,
        if_neg (by rw [collapseNewlines_head?]; exact h), ih]

/-- C9 counterexample: the claim "no pipeline stage after loading modifies
the Document's text or metadata" fails on the code: the setup cell reassigns
`document.page_content` right after `loader.load()`, and on a content with a
double newline the reassigned text differs. -/
theorem cleanDocument_modifies :
    cleanDocument ⟨['a', '\n', '\n', 'b'], []⟩ ≠
      Document.mk ['a', '\n', '\n', 'b'] [] := by decide

/-- C9 (amended): the Document is modified exactly once after loading, by the
newline-normalization cleanup; the cleanup is idempotent (a cleaned document
is a fixed point), it never touches the metadata, and the subsequent
splitting stage does not modify the document at all. -/
theorem document_stable_after_cleanup (d : Document) :
    cleanDocument (cleanDocument d) = cleanDocument d ∧
    (cleanDocument d).metadata = d.metadata ∧
    ∀ (S O : Nat) (st st' : NotebookState),
      splitStage S O st = .ok st' → st'.document = st.document := by
  refine ⟨?_, rfl, ?_⟩
  · unfold cleanDocument
    rw [collapseNewlines_idem]
  · intro S O st st' hok
    unfold splitStage at hok
    cases hchunk : chunk S O st.document.page_content with
    | error e =>
      rw [hchunk] at hok
      simp [Except.map] at hok
    | ok segs =>
      rw [hchunk] at hok
      have : { st with texts := segs } = st' := by
        simpa [Except.map] using hok
      rw [← this]

theorem document_stable_after_cleanup_instance :
    cleanDocument (cleanDocument ⟨['a', '\n', '\n', 'b'], []⟩) =
      cleanDocument ⟨['a', '\n', '\n', 'b'], []⟩ :=
  (document_stable_after_cleanup ⟨['a', '\n', '\n', 'b'], []⟩).1

/-! ## RAG extraction path -/

/-- Error raised by an out-of-bounds sequence index. -/
inductive RagError where
  | indexError
deriving DecidableEq, Repr

/-- The notebook's RAG extractor
`{"text": retriever | (lambda docs: docs[0].page_content)} | extractor`:
the content of the first retrieved document is read unconditionally
(`docs[0]`, a fallible index access), and the extractor then runs on that
content. -/
def ragExtract (retriever : List Char → List Document)
    (extractor : List Char → ExtractionData) (query : List Char) :
    Except RagError ExtractionData :=
  match (retriever query)[0]? with
  | none => .error .indexError
  | some d => .ok (extractor d.page_content)

/-- C10: if the retriever returns no documents for the query, the RAG path
raises an index error; it does not return a result, in particular not an
empty record collection. -/
theorem ragExtract_empty_retrieval (retriever : List Char → List Document)
    (extractor : List Char → ExtractionData) (query : List Char)
    (h : retriever query = []) :
    ragExtract retriever extractor query = .error .indexError ∧
    ∀ data : ExtractionData, ragExtract retriever extractor query ≠ .ok data := by
  have : ragExtract retriever extractor query = .error .indexError := by
    unfold ragExtract
    rw [h]
    rfl
  exact ⟨this, fun data hok => by rw [this] at hok; exact Except.noConfusion hok⟩

theorem ragExtract_empty_retrieval_instance :
    ragExtract (fun _ => []) (fun _ => ⟨[]⟩) [] = .error .indexError ∧
    ∀ data : ExtractionData,
      ragExtract (fun _ => []) (fun _ => ⟨[]⟩) [] ≠ .ok data :=
  ragExtract_empty_retrieval (fun _ => []) (fun _ => ⟨[]⟩) [] rfl
